import Mathlib

set_option maxRecDepth 8000

/-! Verification of the Hydra dispensing-log analyzer (src/main.py).

The script walks line-oriented log files, recognizes four regex events
(Start, additive timing, progress, end), assembles one record per completed
dispense cycle, and aggregates recipe-frequency tables.  Strings are modelled
as lists of characters; the four Python regexes are modelled by a
backtracking matcher with Python's search semantics (leftmost start
position, greedy quantifiers trying the longest extent first). -/

namespace HydraLog

abbrev Str := List Char

def str (s : String) : Str := s.data

/-- Python ASCII whitespace, as accepted by str.strip and regex whitespace
on these ASCII logs. -/
def isSpaceC (c : Char) : Bool :=
  c == ' ' || c == '\t' || c == '\n' || c == '\r' || c == '\x0b' || c == '\x0c'

/-- Python str.strip(): remove whitespace from both ends. -/
def pystrip (s : Str) : Str :=
  ((s.dropWhile isSpaceC).reverse.dropWhile isSpaceC).reverse

def digitVal (c : Char) : Nat := c.toNat - '0'.toNat

/-- Value of a decimal digit string (most significant digit first). -/
def digitsVal (s : Str) : Nat := s.foldl (fun a c => 10 * a + digitVal c) 0

/-- The CPython 3.11+ default limit on the digit count of an int() string
conversion (sys.int_info.default_max_str_digits): longer digit strings,
leading zeros included, raise ValueError. -/
def maxIntDigits : Nat := 4300

/-- Python int() on the strings the regex captures can produce: it succeeds
exactly on nonempty all-digit strings of at most maxIntDigits digits (signs
and surrounding whitespace can never occur in a capture of one of the four
patterns; past the digit limit CPython 3.11+ raises ValueError). -/
def pyInt (s : Str) : Option Nat :=
  if s ≠ [] ∧ s.all Char.isDigit = true ∧ s.length ≤ maxIntDigits then some (digitsVal s)
  else none

/-- Little-endian decimal digits of n, with explicit fuel so that the
definition is structurally recursive (fuel at least n is enough). -/
def toDigitsRev : Nat → Nat → List Nat
  | 0, _ => []
  | fuel+1, n => if n = 0 then [] else n % 10 :: toDigitsRev fuel (n / 10)

/-- Decimal rendering of a natural number, as Python str() produces it. -/
def natRepr (n : Nat) : Str :=
  if n = 0 then ['0'] else (toDigitsRev n n).reverse.map Nat.digitChar

/-- One unit of the four regex patterns of main.py: a literal (with a
case-insensitivity flag), a whitespace run for one-or-more whitespace, a
captured one-or-more digit group, the captured group of an H followed by
digits under IGNORECASE, or an uncaptured greedy dot-star. -/
inductive RItem where
  | lit (l : Str) (ci : Bool)
  | ws
  | digits
  | hdigits
  | dotstar
deriving DecidableEq

/-- Character comparison, optionally case-insensitive (IGNORECASE). -/
def chEq (ci : Bool) (a b : Char) : Bool :=
  if ci then a.toLower == b.toLower else a == b

/-- Strip a literal from the front of the input, comparing with chEq. -/
def stripLit (ci : Bool) : Str → Str → Option Str
  | [], cs => some cs
  | _ :: _, [] => none
  | p :: ps, c :: cs => if chEq ci p c then stripLit ci ps cs else none

/-- First successful result of f over a list of alternatives, in order. -/
def firstSome {α β : Type} (f : α → Option β) : List α → Option β
  | [] => none
  | a :: as =>
    match f a with
    | some b => some b
    | none => firstSome f as

/-- The list n, n-1, ..., 1: extents a greedy one-or-more quantifier tries. -/
def rangeDown : Nat → List Nat
  | 0 => []
  | n+1 => (n+1) :: rangeDown n

/-- The list n, n-1, ..., 1, 0: extents a greedy dot-star tries. -/
def rangeDown0 (n : Nat) : List Nat := rangeDown n ++ [0]

/-- Backtracking matcher for a pattern against a prefix of the input, with
Python's preference order: greedy quantifiers try the longest extent first.
Returns the captured groups, in order, on success. -/
def matchItems : List RItem → Str → Option (List Str)
  | [], _ => some []
  | RItem.lit l ci :: rest, cs =>
    match stripLit ci l cs with
    | some cs2 => matchItems rest cs2
    | none => none
  | RItem.ws :: rest, cs =>
    firstSome (fun k => matchItems rest (cs.drop k))
      (rangeDown (cs.takeWhile isSpaceC).length)
  | RItem.digits :: rest, cs =>
    firstSome (fun k => (matchItems rest (cs.drop k)).map (fun caps => cs.take k :: caps))
      (rangeDown (cs.takeWhile Char.isDigit).length)
  | RItem.hdigits :: rest, cs =>
    match cs with
    | [] => none
    | c :: cs2 =>
      if c == 'H' || c == 'h' then
        firstSome
          (fun k => (matchItems rest (cs2.drop k)).map (fun caps => (c :: cs2.take k) :: caps))
          (rangeDown (cs2.takeWhile Char.isDigit).length)
      else none
  | RItem.dotstar :: rest, cs =>
    firstSome (fun k => matchItems rest (cs.drop k))
      (rangeDown0 (cs.takeWhile (fun c => c != '\n')).length)

/-- re.search semantics: try to match at each start position, left to right. -/
def searchFrom (items : List RItem) : Str → Option (List Str)
  | [] => matchItems items []
  | c :: cs =>
    match matchItems items (c :: cs) with
    | some caps => some caps
    | none => searchFrom items cs

def reSearch (items : List RItem) (s : Str) : Option (List Str) := searchFrom items s

/-- Pattern of the Start line:
Start\s+TankDisp\s+RcpBtIdx=(\d+)\s+(H\d+)\s+Amnt=(\d+)dL with IGNORECASE. -/
def startPat : List RItem :=
  [RItem.lit (str "Start") true, RItem.ws, RItem.lit (str "TankDisp") true, RItem.ws,
   RItem.lit (str "RcpBtIdx=") true, RItem.digits, RItem.ws, RItem.hdigits, RItem.ws,
   RItem.lit (str "Amnt=") true, RItem.digits, RItem.lit (str "dL") true]

/-- Pattern of the timing line:
Hydra=(\d+)ms.*Ad1=(\d+)ms.*Ad2=(\d+)ms.*Ad3=(\d+)ms.*Ad4=(\d+)ms, case-sensitive. -/
def timingPat : List RItem :=
  [RItem.lit (str "Hydra=") false, RItem.digits, RItem.lit (str "ms") false, RItem.dotstar,
   RItem.lit (str "Ad1=") false, RItem.digits, RItem.lit (str "ms") false, RItem.dotstar,
   RItem.lit (str "Ad2=") false, RItem.digits, RItem.lit (str "ms") false, RItem.dotstar,
   RItem.lit (str "Ad3=") false, RItem.digits, RItem.lit (str "ms") false, RItem.dotstar,
   RItem.lit (str "Ad4=") false, RItem.digits, RItem.lit (str "ms") false]

/-- Pattern of the progress line: Disp-Progress\s+Done=(\d+)dL\s+Need=(\d+)dL. -/
def progPat : List RItem :=
  [RItem.lit (str "Disp-Progress") false, RItem.ws, RItem.lit (str "Done=") false,
   RItem.digits, RItem.lit (str "dL") false, RItem.ws, RItem.lit (str "Need=") false,
   RItem.digits, RItem.lit (str "dL") false]

/-- Pattern of the end line: TankDisp-End\s+Done=(\d+)dL\s+Ret=(\d+). -/
def endPat : List RItem :=
  [RItem.lit (str "TankDisp-End") false, RItem.ws, RItem.lit (str "Done=") false,
   RItem.digits, RItem.lit (str "dL") false, RItem.ws, RItem.lit (str "Ret=") false,
   RItem.digits]

/-- start_match with its three captured groups. -/
def matchStart (s : Str) : Option (Str × Str × Str) :=
  match reSearch startPat s with
  | some [g1, g2, g3] => some (g1, g2, g3)
  | _ => none

/-- add_match with its five captured groups. -/
def matchTiming (s : Str) : Option (Str × Str × Str × Str × Str) :=
  match reSearch timingPat s with
  | some [g1, g2, g3, g4, g5] => some (g1, g2, g3, g4, g5)
  | _ => none

/-- prog_match with its two captured groups. -/
def matchProg (s : Str) : Option (Str × Str) :=
  match reSearch progPat s with
  | some [g1, g2] => some (g1, g2)
  | _ => none

/-- end_match with its two captured groups. -/
def matchEnd (s : Str) : Option (Str × Str) :=
  match reSearch endPat s with
  | some [g1, g2] => some (g1, g2)
  | _ => none

/-- StartTime of main.py: the part of the (stripped) line before the first
tilde, stripped, when a tilde occurs in the line, else the empty string. -/
def startTimeOf (s : Str) : Str :=
  if '~' ∈ s then pystrip (s.takeWhile (fun c => c != '~')) else []

/-- One parsed dispense cycle: the record parse_log appends per End event,
with the field names and order of the source dictionary. -/
structure Cycle where
  LogFile : Str
  StartTime : Str
  RecipeIndex : Str
  Hydra_ms : Nat
  Additives : Str
  Progress : Str
  Actual_Litre : Str
deriving DecidableEq

/-- ad_map of main.py: Ad1 is S, Ad2 is PR, Ad3 is T, Ad4 is Brine, any other
index degrades to its raw token (the dict .get default). -/
def ad_map (i : Nat) : Str :=
  if i = 1 then str "S"
  else if i = 2 then str "PR"
  else if i = 3 then str "T"
  else if i = 4 then str "Brine"
  else str "Ad" ++ natRepr i

/-- The pairs (i, ad i) for i = 1..4 that the timing block enumerates. -/
def adPairs (a1 a2 a3 a4 : Nat) : List (Nat × Nat) := [(1, a1), (2, a2), (3, a3), (4, a4)]

/-- Python sep.join. -/
def joinSep (sep : Str) : List Str → Str
  | [] => []
  | [x] => x
  | x :: y :: t => x ++ sep ++ joinSep sep (y :: t)

/-- additives_used of main.py: in index order 1..4, entries with ms > 0,
rendered as name: msms via ad_map. -/
def additivesUsed (a1 a2 a3 a4 : Nat) : List Str :=
  ((adPairs a1 a2 a3 a4).filter (fun p => decide (0 < p.2))).map
    (fun p => ad_map p.1 ++ str ": " ++ natRepr p.2 ++ str "ms")

/-- The Additives string the timing block stores: the joined used list, or
the literal None when no additive has positive ms. -/
def additivesStr (a1 a2 a3 a4 : Nat) : Str :=
  if additivesUsed a1 a2 a3 a4 = [] then str "None"
  else joinSep (str ", ") (additivesUsed a1 a2 a3 a4)

/-- The Progress string: done/need dL. -/
def progStr (d n : Nat) : Str := natRepr d ++ str "/" ++ natRepr n ++ str " dL"

/-- Round N/D to the nearest integer, ties to even: the rounding IEEE 754
binary64 arithmetic and CPython float formatting both use. -/
def rndHalfEven (N D : Nat) : Nat :=
  if 2 * (N % D) < D then N / D
  else if D < 2 * (N % D) then N / D + 1
  else if N / D % 2 = 0 then N / D else N / D + 1

/-- floor of log2 of N/D for positive N and D, by repeated doubling; the
fuel only bounds the loop, and N + 4 steps always suffice (at most four
doublings of N raise N/D above one, then at most log2 N, at most N,
doublings of D reach it). -/
def floorLog2Q : Nat → Nat → Nat → Int
  | 0, _, _ => 0
  | fuel+1, N, D =>
    if D ≤ N then
      if N < 2 * D then 0 else 1 + floorLog2Q fuel N (2 * D)
    else -1 + floorLog2Q fuel (2 * N) D

/-- The smallest done for which Python evaluates done/10 to infinity and
raises OverflowError: the exact quotient reaches
2 to the 1024 minus 2 to the 970, the midpoint above the largest finite
binary64 value, which rounds (ties to even) up to infinity. -/
def ovfBound : Nat := 10 * (2 ^ 1024 - 2 ^ 970)

/-- The binary64 double nearest to done/10 (round half to even), as a
mantissa-exponent pair with value m times 2 to the e.  The exponent is not
clamped: overflow is the separate test against ovfBound, and subnormals
cannot arise since done/10 is at least 0.1 for positive done. -/
def double10 (done : Nat) : Nat × Int :=
  if done = 0 then (0, 0) else
  let e : Int := floorLog2Q (done + 4) done 10 - 52
  let m : Nat :=
    if 0 ≤ e then rndHalfEven done (10 * 2 ^ e.toNat)
    else rndHalfEven (done * 2 ^ (-e).toNat) 10
  if m = 2 ^ 53 then (2 ^ 52, e + 1) else (m, e)

/-- CPython one-decimal formatting of the nonnegative double m times 2 to
the e: the decimal digits of the integer nearest to ten times the exact
binary value, ties to even, split before the last digit. -/
def fmt1f (p : Nat × Int) : Str :=
  let n : Nat :=
    if 0 ≤ p.2 then p.1 * 2 ^ p.2.toNat * 10
    else rndHalfEven (p.1 * 10) (2 ^ (-p.2).toNat)
  natRepr (n / 10) ++ str "." ++ [Nat.digitChar (n % 10)]

/-- The Actual_Litre string on the non-raising path: the one-decimal,
ties-to-even rendering of the binary64 double nearest done/10, followed by
L.  This can differ from the exact done/10 written with one decimal: at
done = 5629499534213123 the nearest double ends in .25 and formats to .2
while the exact quotient ends in .3. -/
def litreStr (d : Nat) : Str := fmt1f (double10 d) ++ str "L"

/-- The same f-string with its failure path: the true division done/10
raises OverflowError exactly when done reaches ovfBound. -/
def litreStrE (d : Nat) : Option Str :=
  if d < ovfBound then some (litreStr d) else none

/-- The fresh record the start block stores into current. -/
def initCycle (lf t r : Str) : Cycle :=
  { LogFile := lf, StartTime := t, RecipeIndex := r, Hydra_ms := 0,
    Additives := [], Progress := [], Actual_Litre := [] }

/-- The end block's completion of a record: when Actual_Litre is still empty
it is computed from the End line's done value. -/
def finishCycle (c : Cycle) (d : Nat) : Cycle :=
  if c.Actual_Litre = [] then { c with Actual_Litre := litreStr d } else c

/-- Raw tagged events, one per regex block that matched a line, still
carrying the captured digit strings.  The end event's second group (Ret) is
captured by the regex but never converted or used by the source. -/
inductive EvR where
  | start (recipe : Str) (stime : Str)
  | timing (g1 g2 g3 g4 g5 : Str)
  | prog (g1 g2 : Str)
  | fin (g1 : Str) (g2 : Str)
deriving DecidableEq

/-- Tagged events after integer conversion. -/
inductive Ev where
  | start (recipe : Str) (stime : Str)
  | timing (h a1 a2 a3 a4 : Nat)
  | prog (d n : Nat)
  | fin (d : Nat)
deriving DecidableEq

/-- The raw events of one stripped line, in the order of the four if-blocks
of parse_log: start, timing, progress, end. -/
def lineEventsR (s : Str) : List EvR :=
  (match matchStart s with
   | some (_, g2, _) => [EvR.start g2 (startTimeOf s)]
   | none => []) ++
  (match matchTiming s with
   | some (g1, g2, g3, g4, g5) => [EvR.timing g1 g2 g3 g4 g5]
   | none => []) ++
  (match matchProg s with
   | some (g1, g2) => [EvR.prog g1 g2]
   | none => []) ++
  (match matchEnd s with
   | some (g1, g2) => [EvR.fin g1 g2]
   | none => [])

/-- Integer conversion of a raw event (int on the captured digit groups). -/
def convEv : EvR → Ev
  | EvR.start r t => Ev.start r t
  | EvR.timing g1 g2 g3 g4 g5 =>
    Ev.timing (digitsVal g1) (digitsVal g2) (digitsVal g3) (digitsVal g4) (digitsVal g5)
  | EvR.prog g1 g2 => Ev.prog (digitsVal g1) (digitsVal g2)
  | EvR.fin g1 _ => Ev.fin (digitsVal g1)

/-- The tagged events of one stripped line. -/
def lineEvents (s : Str) : List Ev := (lineEventsR s).map convEv

/-- One transition of the cycle assembler.  The state is the optional
in-progress record (current, with the empty dict as none) plus the list of
completed records. -/
def stepEvent (lf : Str) (acc : Option Cycle × List Cycle) : Ev → Option Cycle × List Cycle
  | Ev.start r t => (some (initCycle lf t r), acc.2)
  | Ev.timing h a1 a2 a3 a4 =>
    match acc.1 with
    | none => acc
    | some c =>
      (some { c with Hydra_ms := h, Additives := additivesStr a1 a2 a3 a4 }, acc.2)
  | Ev.prog d n =>
    match acc.1 with
    | none => acc
    | some c =>
      (some { c with Progress := progStr d n, Actual_Litre := litreStr d }, acc.2)
  | Ev.fin d =>
    match acc.1 with
    | none => acc
    | some c => (none, acc.2 ++ [finishCycle c d])

/-- Processing of one raw input line: strip it, skip it when empty, else run
the four event blocks in order. -/
def processLine (lf : Str) (acc : Option Cycle × List Cycle) (line : Str) :
    Option Cycle × List Cycle :=
  let s := pystrip line
  if s = [] then acc else (lineEvents s).foldl (stepEvent lf) acc

/-- parse_log of main.py over the lines of one file (lf is the stored
LogFile name, the basename of the opened path): the completed records, the
in-progress record at end of file being discarded. -/
def parse_log (lf : Str) (lines : List Str) : List Cycle :=
  (lines.foldl (processLine lf) (none, [])).2

/-- The flat event stream of a file, lines stripped and empty lines
skipped. -/
def eventsOfFile (lines : List Str) : List Ev :=
  lines.foldr
    (fun l acc => (let s := pystrip l; if s = [] then [] else lineEvents s) ++ acc) []

/-- The assembler run from the idle state over an event stream. -/
def assemble (lf : Str) (es : List Ev) : Option Cycle × List Cycle :=
  es.foldl (stepEvent lf) (none, [])

/-- One transition of the assembler on a raw event, threading Option to
model exceptions at exactly the source's failure sites: int() on the five
timing groups and the two progress groups when a cycle is in progress and
on the End Done group only when Actual_Litre is still empty (the End Ret
group is never converted), and the done/10 float division of the progress
and end f-strings, which raises OverflowError past ovfBound. -/
def stepEvR (lf : Str) (acc : Option Cycle × List Cycle) :
    EvR → Option (Option Cycle × List Cycle)
  | EvR.start r t => some (some (initCycle lf t r), acc.2)
  | EvR.timing g1 g2 g3 g4 g5 =>
    match acc.1 with
    | none => some acc
    | some c => do
      let h ← pyInt g1
      let a1 ← pyInt g2
      let a2 ← pyInt g3
      let a3 ← pyInt g4
      let a4 ← pyInt g5
      some (some { c with Hydra_ms := h, Additives := additivesStr a1 a2 a3 a4 }, acc.2)
  | EvR.prog g1 g2 =>
    match acc.1 with
    | none => some acc
    | some c => do
      let d ← pyInt g1
      let n ← pyInt g2
      let al ← litreStrE d
      some (some { c with Progress := progStr d n, Actual_Litre := al }, acc.2)
  | EvR.fin g1 _ =>
    match acc.1 with
    | none => some acc
    | some c =>
      if c.Actual_Litre = [] then do
        let d ← pyInt g1
        let al ← litreStrE d
        some (none, acc.2 ++ [{ c with Actual_Litre := al }])
      else some (none, acc.2 ++ [c])

/-- Exception-aware processing of one raw line. -/
def processLineE (lf : Str) (acc : Option Cycle × List Cycle) (line : Str) :
    Option (Option Cycle × List Cycle) :=
  let s := pystrip line
  if s = [] then some acc else (lineEventsR s).foldlM (stepEvR lf) acc

/-- Exception-aware parse_log: none would mean an uncaught exception. -/
def parse_logE (lf : Str) (lines : List Str) : Option (List Cycle) :=
  (lines.foldlM (processLineE lf) (none, [])).map (fun acc => acc.2)

/-- Ghost history of one in-progress cycle: the timing and progress events
that were applied to it, in order. -/
structure Ghost where
  timings : List (Nat × Nat × Nat × Nat × Nat)
  progs : List (Nat × Nat)
deriving DecidableEq

/-- An emitted record together with the ghost history of its cycle and the
done value of the End event that completed it. -/
structure Emit where
  cyc : Cycle
  timings : List (Nat × Nat × Nat × Nat × Nat)
  progs : List (Nat × Nat)
  endDone : Nat
deriving DecidableEq

/-- The assembler transition instrumented with ghost history; erasing the
ghost components recovers stepEvent (proved below). -/
def stepEventI (lf : Str) (acc : Option (Cycle × Ghost) × List Emit) :
    Ev → Option (Cycle × Ghost) × List Emit
  | Ev.start r t => (some (initCycle lf t r, { timings := [], progs := [] }), acc.2)
  | Ev.timing h a1 a2 a3 a4 =>
    match acc.1 with
    | none => acc
    | some (c, g) =>
      (some ({ c with Hydra_ms := h, Additives := additivesStr a1 a2 a3 a4 },
             { g with timings := g.timings ++ [(h, a1, a2, a3, a4)] }), acc.2)
  | Ev.prog d n =>
    match acc.1 with
    | none => acc
    | some (c, g) =>
      (some ({ c with Progress := progStr d n, Actual_Litre := litreStr d },
             { g with progs := g.progs ++ [(d, n)] }), acc.2)
  | Ev.fin d =>
    match acc.1 with
    | none => acc
    | some (c, g) =>
      (none, acc.2 ++ [{ cyc := finishCycle c d, timings := g.timings,
                         progs := g.progs, endDone := d }])

/-- The instrumented assembler run from the idle state. -/
def assembleI (lf : Str) (es : List Ev) : Option (Cycle × Ghost) × List Emit :=
  es.foldl (stepEventI lf) (none, [])

/-- Claim-side counter, following the words of the spec: the number of End
events that were preceded, since the last End event or the start of the
stream, by at least one Start event.  The flag records whether a Start has
been seen since the last End. -/
def countGoodEnds : Bool → List Ev → Nat
  | _, [] => 0
  | _, Ev.start _ _ :: es => countGoodEnds true es
  | b, Ev.fin _ :: es => (if b then 1 else 0) + countGoodEnds false es
  | b, Ev.timing _ _ _ _ _ :: es => countGoodEnds b es
  | b, Ev.prog _ _ :: es => countGoodEnds b es

/-- Outcome of one run of the module-level driver, abstracting the workbook
contents: the flat record list, whether the no-data warning was printed,
whether a workbook was written, and the process exit status.  The no-data
branch of main.py calls exit() with no argument, which raises
SystemExit(None) and terminates the process with status 0. -/
structure ToolRun where
  records : List Cycle
  warned : Bool
  workbookWritten : Bool
  exitCode : Nat
deriving DecidableEq

/-- The module-level driver over a list of (file name, lines) inputs:
all_data is the concatenation of the per-file parses (extend is a no-op for
an empty parse), and the no-data guard warns and exits early. -/
def runTool (inputs : List (Str × List Str)) : ToolRun :=
  let all_data := (inputs.map (fun p => parse_log p.1 p.2)).foldr (fun l acc => l ++ acc) []
  if all_data = [] then
    { records := [], warned := true, workbookWritten := false, exitCode := 0 }
  else
    { records := all_data, warned := false, workbookWritten := true, exitCode := 0 }

/-- Per-file recipe frequency (value_counts on the RecipeIndex column), as a
total function from recipe key to count, absent keys counting as zero. -/
def value_counts (df : List Cycle) (r : Str) : Nat :=
  (df.filter (fun c => c.RecipeIndex == r)).length

/-- individual_data of main.py: the files whose parse produced records,
paired with those records, in input order. -/
def individualData (inputs : List (Str × List Str)) : List (Str × List Cycle) :=
  (inputs.map (fun p => (p.1, parse_log p.1 p.2))).filter (fun p => !p.2.isEmpty)

/-- combined_recipe_counts of main.py: the element-wise sum, with absent
keys as zero (Series.add with fill_value=0), of the per-file tables, folded
in file order starting from the empty table. -/
def combined_recipe_counts (inputs : List (Str × List Str)) : Str → Nat :=
  (individualData inputs).foldl (fun acc p r => acc r + value_counts p.2 r) (fun _ => 0)

/-- The candidate output names, in the order the collision loop tries them:
base.xlsx first, then base_1.xlsx, base_2.xlsx, and so on (base is
Combined_Dispense_Log_ followed by today's date). -/
def cand (base : Str) : Nat → Str
  | 0 => base ++ str ".xlsx"
  | k+1 => base ++ str "_" ++ natRepr (k+1) ++ str ".xlsx"

/-- The collision loop: while the current candidate exists, move to the
next.  The fuel only bounds the iteration so the definition is total;
existing.length + 1 candidates always suffice (proved below). -/
def chooseAux (base : Str) (existing : List Str) : Nat → Nat → Str
  | 0, k => cand base k
  | fuel+1, k => if cand base k ∈ existing then chooseAux base existing fuel (k+1) else cand base k

/-- The chosen output file name, given the set of names that exist in the
working directory. -/
def chooseOutput (base : Str) (existing : List Str) : Str :=
  chooseAux base existing (existing.length + 1) 0

/-- A nonempty all-digit string: the shape of every (\d+) capture. -/
def digitRun (g : Str) : Prop := g ≠ [] ∧ g.all Char.isDigit = true

/-- The shape of the (H\d+) capture under IGNORECASE: an upper- or
lower-case H followed by at least one digit. -/
def hRun (g : Str) : Prop :=
  ∃ c g2, g = c :: g2 ∧ (c = 'H' ∨ c = 'h') ∧ g2 ≠ [] ∧ g2.all Char.isDigit = true

/-- The claim's invariant on RecipeIndex: full match of H followed by one or
more digits, with an upper-case H. -/
def matchesHUpper (g : Str) : Bool :=
  match g with
  | c :: rest => c == 'H' && !rest.isEmpty && rest.all Char.isDigit
  | [] => false

/-- The amended invariant: upper- or lower-case H followed by digits. -/
def matchesHCi (g : Str) : Bool :=
  match g with
  | c :: rest => (c == 'H' || c == 'h') && !rest.isEmpty && rest.all Char.isDigit
  | [] => false

/-- Wellformedness of a raw event: all groups that int() will be applied to
are digit runs, and the start recipe has the H shape. -/
def EvROK : EvR → Prop
  | EvR.start r _ => hRun r
  | EvR.timing g1 g2 g3 g4 g5 => digitRun g1 ∧ digitRun g2 ∧ digitRun g3 ∧ digitRun g4 ∧ digitRun g5
  | EvR.prog g1 g2 => digitRun g1 ∧ digitRun g2
  | EvR.fin g1 _ => digitRun g1

/-- Boundedness of a raw event, under which the source raises nothing: the
converted captures stay within the int() digit limit, and the done values
that reach the f-string division stay below the float overflow bound. -/
def EvRSmall : EvR → Bool
  | EvR.start _ _ => true
  | EvR.timing g1 g2 g3 g4 g5 =>
    decide (g1.length ≤ maxIntDigits ∧ g2.length ≤ maxIntDigits ∧ g3.length ≤ maxIntDigits ∧
      g4.length ≤ maxIntDigits ∧ g5.length ≤ maxIntDigits)
  | EvR.prog g1 g2 =>
    decide (g1.length ≤ maxIntDigits ∧ g2.length ≤ maxIntDigits ∧ digitsVal g1 < ovfBound)
  | EvR.fin g1 _ =>
    decide (g1.length ≤ maxIntDigits ∧ digitsVal g1 < ovfBound)

/-- Boundedness of a whole input: every event of every line is bounded. -/
def linesSmall (lines : List Str) : Prop :=
  ∀ l ∈ lines, ∀ e ∈ lineEventsR (pystrip l), EvRSmall e = true

/-- Shapes of the captures of a successful match, read off the item list. -/
def CapsOK : List RItem → List Str → Prop
  | [], caps => caps = []
  | RItem.lit _ _ :: rest, caps => CapsOK rest caps
  | RItem.ws :: rest, caps => CapsOK rest caps
  | RItem.dotstar :: rest, caps => CapsOK rest caps
  | RItem.digits :: rest, caps =>
    ∃ g caps2, caps = g :: caps2 ∧ digitRun g ∧ CapsOK rest caps2
  | RItem.hdigits :: rest, caps =>
    ∃ g caps2, caps = g :: caps2 ∧ hRun g ∧ CapsOK rest caps2

/-- Invariant tying an in-progress record to its ghost history: Additives
reflects the last timing event applied (empty when none was), and
Actual_Litre and Progress reflect the last progress event applied. -/
def InvCG (c : Cycle) (g : Ghost) : Prop :=
  (match g.timings.getLast? with
   | none => c.Additives = []
   | some (_, a1, a2, a3, a4) => c.Additives = additivesStr a1 a2 a3 a4) ∧
  (match g.progs.getLast? with
   | none => c.Actual_Litre = [] ∧ c.Progress = []
   | some (d, n) => c.Actual_Litre = litreStr d ∧ c.Progress = progStr d n)

/-- What holds of every emitted record: Additives reflects the last timing
event of its cycle, and Actual_Litre is computed from the last progress
event's done value when one was observed, else from the End event's. -/
def EmitOK (e : Emit) : Prop :=
  (match e.timings.getLast? with
   | none => e.cyc.Additives = []
   | some (_, a1, a2, a3, a4) => e.cyc.Additives = additivesStr a1 a2 a3 a4) ∧
  e.cyc.Actual_Litre =
    litreStr (match e.progs.getLast? with | none => e.endDone | some p => p.1)

/-- A sample log file name for the concrete witness runs. -/
def fileA : Str := str "A.TXT"

/-- Concrete input lines: a complete cycle with timing and progress. -/
def linesW1 : List Str :=
  [str "Start TankDisp RcpBtIdx=3 H7 Amnt=50dL",
   str "Hydra=9ms Ad1=2ms Ad2=0ms Ad3=5ms Ad4=0ms",
   str "Disp-Progress Done=48dL Need=50dL",
   str "TankDisp-End Done=48dL Ret=0"]

/-- The record linesW1 emits, with its ghost history. -/
def emitW1 : Emit :=
  { cyc := { LogFile := fileA, StartTime := [], RecipeIndex := str "H7", Hydra_ms := 9,
             Additives := str "S: 2ms, T: 5ms", Progress := str "48/50 dL",
             Actual_Litre := str "4.8L" },
    timings := [(9, 2, 0, 5, 0)], progs := [(48, 50)], endDone := 48 }

/-- Concrete input lines: a cycle with an all-zero timing and no progress. -/
def linesW2 : List Str :=
  [str "Start TankDisp RcpBtIdx=1 H2 Amnt=5dL",
   str "Hydra=7ms Ad1=0ms Ad2=0ms Ad3=0ms Ad4=0ms",
   str "TankDisp-End Done=5dL Ret=0"]

/-- The record linesW2 emits, with its ghost history. -/
def emitW2 : Emit :=
  { cyc := { LogFile := fileA, StartTime := [], RecipeIndex := str "H2", Hydra_ms := 7,
             Additives := str "None", Progress := [], Actual_Litre := str "0.5L" },
    timings := [(7, 0, 0, 0, 0)], progs := [], endDone := 5 }

/-- Concrete input lines: a minimal complete cycle without timing. -/
def linesW3 : List Str :=
  [str "Start TankDisp RcpBtIdx=1 H2 Amnt=5dL", str "TankDisp-End Done=5dL Ret=0"]

/-- The record linesW3 emits. -/
def cycW3 : Cycle :=
  { LogFile := fileA, StartTime := [], RecipeIndex := str "H2", Hydra_ms := 0,
    Additives := [], Progress := [], Actual_Litre := str "0.5L" }

/-- A lower-case Start line (the Start regex is case-insensitive) followed by
an End line: the emitted record's RecipeIndex keeps the lower-case h. -/
def linesLower : List Str :=
  [str "start tankdisp rcpbtidx=3 h7 amnt=50dl", str "TankDisp-End Done=5dL Ret=0"]

/-- A single line that matches both the Start and the End pattern. -/
def lineDouble : Str :=
  str "Start TankDisp RcpBtIdx=1 H2 Amnt=5dL TankDisp-End Done=5dL Ret=0"

/-- The rendering the original numeric claim asserts, following its words:
the exact quotient done/10 written with exactly one decimal digit, followed
by L. -/
def exactOneDec (d : Nat) : Str :=
  natRepr (d / 10) ++ str "." ++ [Nat.digitChar (d % 10)] ++ str "L"

/-- A cycle whose End done value lands the double done/10 on a decimal tie:
the nearest double to 5629499534213123/10 ends in .25 and formats, ties to
even, to .2, while the exact quotient ends in .3. -/
def linesTie : List Str :=
  [str "Start TankDisp RcpBtIdx=1 H2 Amnt=5dL",
   str "TankDisp-End Done=5629499534213123dL Ret=0"]

/-- A progress line whose 310-digit done value is past ovfBound, so the
f-string division done/10 raises OverflowError. -/
def linesOvf : List Str :=
  [str "Start TankDisp RcpBtIdx=1 H2 Amnt=5dL",
   str "Disp-Progress Done=2" ++ List.replicate 309 '0' ++ str "dL Need=1dL"]

/-- Rank of an event kind in the fixed block order of parse_log. -/
def evRank : Ev → Nat
  | Ev.start _ _ => 0
  | Ev.timing _ _ _ _ _ => 1
  | Ev.prog _ _ => 2
  | Ev.fin _ => 3

lemma digitVal_digitChar : ∀ d < 10, digitVal (Nat.digitChar d) = d := by decide

lemma digitChar_isDigit : ∀ d < 10, (Nat.digitChar d).isDigit = true := by decide

lemma toDigitsRev_mem_lt : ∀ fuel n d, d ∈ toDigitsRev fuel n → d < 10 := by
  intro fuel
  induction fuel with
  | zero => intro n d h; simp [toDigitsRev] at h
  | succ fuel ih =>
    intro n d h
    by_cases hn : n = 0
    · simp [toDigitsRev, hn] at h
    · simp [toDigitsRev, hn] at h
      rcases h with h | h
      · omega
      · exact ih _ _ h

lemma toDigitsRev_foldl : ∀ fuel n, n ≤ fuel → ∀ a,
    List.foldl (fun acc c => 10 * acc + digitVal c) a
      ((toDigitsRev fuel n).reverse.map Nat.digitChar) =
    a * 10 ^ (toDigitsRev fuel n).length + n := by
  intro fuel
  induction fuel with
  | zero => intro n hn a; interval_cases n; simp [toDigitsRev]
  | succ fuel ih =>
    intro n hn a
    by_cases hn0 : n = 0
    · simp [toDigitsRev, hn0]
    · have hdiv : n / 10 ≤ fuel := by
        have : n / 10 < n := Nat.div_lt_self (Nat.pos_of_ne_zero hn0) (by norm_num)
        omega
      rw [toDigitsRev]
      simp only [if_neg hn0, List.reverse_cons, List.map_append, List.foldl_append,
        ih _ hdiv a, List.length_cons, List.map_cons, List.map_nil, List.foldl_cons,
        List.foldl_nil]
      rw [digitVal_digitChar _ (Nat.mod_lt _ (by norm_num))]
      have : 10 * (a * 10 ^ (toDigitsRev fuel (n / 10)).length + n / 10) + n % 10 =
          a * (10 ^ (toDigitsRev fuel (n / 10)).length * 10) + (10 * (n / 10) + n % 10) := by
        ring
      rw [this, Nat.div_add_mod, pow_succ]

lemma digitsVal_natRepr (n : Nat) : digitsVal (natRepr n) = n := by
  by_cases hn : n = 0
  · subst hn; decide
  · unfold natRepr digitsVal
    rw [if_neg hn, toDigitsRev_foldl n n le_rfl 0]
    simp

lemma natRepr_inj {m n : Nat} (h : natRepr m = natRepr n) : m = n := by
  have := congrArg digitsVal h
  rwa [digitsVal_natRepr, digitsVal_natRepr] at this

lemma toDigitsRev_ne_nil {n : Nat} (hn : n ≠ 0) : toDigitsRev n n ≠ [] := by
  cases n with
  | zero => exact absurd rfl hn
  | succ k => simp [toDigitsRev, hn]

lemma natRepr_ne_nil (n : Nat) : natRepr n ≠ [] := by
  unfold natRepr
  by_cases hn : n = 0
  · simp [hn]
  · rw [if_neg hn]
    intro hcon
    exact toDigitsRev_ne_nil hn (by simpa using hcon)

lemma natRepr_all_digit (n : Nat) : (natRepr n).all Char.isDigit = true := by
  unfold natRepr
  by_cases hn : n = 0
  · simp [hn]
  · rw [if_neg hn]
    simp only [List.all_eq_true, List.mem_map, List.mem_reverse]
    rintro c ⟨d, hd, rfl⟩
    exact digitChar_isDigit d (toDigitsRev_mem_lt _ _ _ hd)

lemma pyInt_digitRun {g : Str} (h : digitRun g) (hlen : g.length ≤ maxIntDigits) :
    pyInt g = some (digitsVal g) := by
  unfold pyInt
  rw [if_pos ⟨h.1, h.2, hlen⟩]

lemma litreStrE_lt {d : Nat} (h : d < ovfBound) : litreStrE d = some (litreStr d) := by
  unfold litreStrE
  rw [if_pos h]

lemma firstSome_some {α β : Type} {f : α → Option β} {l : List α} {b : β}
    (h : firstSome f l = some b) : ∃ a ∈ l, f a = some b := by
  induction l with
  | nil => simp [firstSome] at h
  | cons a as ih =>
    rw [firstSome] at h
    rcases hfa : f a with _ | b2
    · rw [hfa] at h
      obtain ⟨a2, ha2, hfa2⟩ := ih h
      exact ⟨a2, List.mem_cons_of_mem _ ha2, hfa2⟩
    · rw [hfa] at h
      exact ⟨a, List.mem_cons_self _ _, by rw [hfa]; exact h⟩

lemma rangeDown_mem {k n : Nat} (h : k ∈ rangeDown n) : 1 ≤ k ∧ k ≤ n := by
  induction n with
  | zero => simp [rangeDown] at h
  | succ n ih =>
    rw [rangeDown] at h
    rcases List.mem_cons.1 h with h | h
    · omega
    · have := ih h; omega

lemma take_all_of_takeWhile (p : Char → Bool) :
    ∀ (cs : Str) (k : Nat), k ≤ (cs.takeWhile p).length → (cs.take k).all p = true := by
  intro cs
  induction cs with
  | nil => intro k hk; simp
  | cons c cs ih =>
    intro k hk
    rcases hpc : p c with _ | _
    · simp [List.takeWhile_cons, hpc] at hk
      subst hk
      simp
    · simp only [List.takeWhile_cons, hpc, if_true, List.length_cons] at hk
      cases k with
      | zero => simp
      | succ k =>
        simp only [List.take_succ_cons, List.all_cons, hpc, Bool.true_and]
        exact ih k (by omega)

lemma take_digitRun {cs : Str} {k : Nat} (h1 : 1 ≤ k)
    (h2 : k ≤ (cs.takeWhile Char.isDigit).length) : digitRun (cs.take k) := by
  constructor
  · have hlen : (cs.takeWhile Char.isDigit).length ≤ cs.length :=
      (List.takeWhile_sublist Char.isDigit).length_le
    have hmin : (cs.take k).length = min k cs.length := List.length_take k cs
    intro hcon
    rw [hcon] at hmin
    simp at hmin
    omega
  · exact take_all_of_takeWhile Char.isDigit cs k h2

lemma matchItems_lit (l : Str) (ci : Bool) (rest : List RItem) (cs : Str) :
    matchItems (RItem.lit l ci :: rest) cs =
      match stripLit ci l cs with
      | some cs2 => matchItems rest cs2
      | none => none := rfl

lemma matchItems_ws (rest : List RItem) (cs : Str) :
    matchItems (RItem.ws :: rest) cs =
      firstSome (fun k => matchItems rest (cs.drop k))
        (rangeDown (cs.takeWhile isSpaceC).length) := rfl

lemma matchItems_digits (rest : List RItem) (cs : Str) :
    matchItems (RItem.digits :: rest) cs =
      firstSome (fun k => (matchItems rest (cs.drop k)).map (fun caps => cs.take k :: caps))
        (rangeDown (cs.takeWhile Char.isDigit).length) := rfl

lemma matchItems_hdigits_nil (rest : List RItem) :
    matchItems (RItem.hdigits :: rest) [] = none := rfl

lemma matchItems_hdigits_cons (rest : List RItem) (c : Char) (cs2 : Str) :
    matchItems (RItem.hdigits :: rest) (c :: cs2) =
      (if c == 'H' || c == 'h' then
        firstSome
          (fun k => (matchItems rest (cs2.drop k)).map (fun caps => (c :: cs2.take k) :: caps))
          (rangeDown (cs2.takeWhile Char.isDigit).length)
      else none) := rfl

lemma matchItems_dotstar (rest : List RItem) (cs : Str) :
    matchItems (RItem.dotstar :: rest) cs =
      firstSome (fun k => matchItems rest (cs.drop k))
        (rangeDown0 (cs.takeWhile (fun c => c != '\n')).length) := rfl

lemma matchItems_capsOK :
    ∀ (items : List RItem) (cs : Str) (caps : List Str),
      matchItems items cs = some caps → CapsOK items caps := by
  intro items
  induction items with
  | nil =>
    intro cs caps h
    simp only [matchItems] at h
    simp at h
    simp [CapsOK, h]
  | cons i rest ih =>
    intro cs caps h
    cases i with
    | lit l ci =>
      rw [matchItems_lit] at h
      rcases hs : stripLit ci l cs with _ | cs2
      · rw [hs] at h; exact absurd h (by simp)
      · rw [hs] at h
        exact ih _ _ h
    | ws =>
      rw [matchItems_ws] at h
      obtain ⟨k, _, hf⟩ := firstSome_some h
      exact ih _ _ hf
    | dotstar =>
      rw [matchItems_dotstar] at h
      obtain ⟨k, _, hf⟩ := firstSome_some h
      exact ih _ _ hf
    | digits =>
      rw [matchItems_digits] at h
      obtain ⟨k, hkmem, hf⟩ := firstSome_some h
      rcases hmi : matchItems rest (cs.drop k) with _ | caps2
      · rw [hmi] at hf; exact absurd hf (by simp)
      · rw [hmi] at hf
        simp at hf
        obtain ⟨h1, h2⟩ := rangeDown_mem hkmem
        exact ⟨cs.take k, caps2, hf.symm, take_digitRun h1 h2, ih _ _ hmi⟩
    | hdigits =>
      rcases cs with _ | ⟨c, cs2⟩
      · rw [matchItems_hdigits_nil] at h
        exact absurd h (by simp)
      · rw [matchItems_hdigits_cons] at h
        rcases hc : (c == 'H' || c == 'h') with _ | _
        · rw [hc] at h; exact absurd h (by simp)
        · rw [hc] at h
          simp only [if_true] at h
          obtain ⟨k, hkmem, hf⟩ := firstSome_some h
          rcases hmi : matchItems rest (cs2.drop k) with _ | caps2
          · rw [hmi] at hf; exact absurd hf (by simp)
          · rw [hmi] at hf
            simp at hf
            obtain ⟨h1, h2⟩ := rangeDown_mem hkmem
            have hdr : digitRun (cs2.take k) := take_digitRun h1 h2
            refine ⟨c :: cs2.take k, caps2, hf.symm, ⟨c, cs2.take k, rfl, ?_, hdr.1, hdr.2⟩,
              ih _ _ hmi⟩
            rcases Bool.or_eq_true_iff.1 hc with hcH | hcH
            · exact Or.inl (by simpa using hcH)
            · exact Or.inr (by simpa using hcH)

lemma searchFrom_capsOK {items : List RItem} :
    ∀ {cs caps}, searchFrom items cs = some caps → CapsOK items caps := by
  intro cs
  induction cs with
  | nil =>
    intro caps h
    rw [searchFrom] at h
    exact matchItems_capsOK _ _ _ h
  | cons c cs ih =>
    intro caps h
    rw [searchFrom] at h
    rcases hm : matchItems items (c :: cs) with _ | caps2
    · rw [hm] at h
      exact ih h
    · rw [hm] at h
      simp at h
      subst h
      exact matchItems_capsOK _ _ _ hm

lemma matchStart_shape {s g1 g2 g3} (h : matchStart s = some (g1, g2, g3)) :
    digitRun g1 ∧ hRun g2 ∧ digitRun g3 := by
  unfold matchStart at h
  rcases hr : reSearch startPat s with _ | caps
  · rw [hr] at h; exact absurd h (by simp)
  · rw [hr] at h
    have hok := searchFrom_capsOK hr
    rcases caps with _ | ⟨a, _ | ⟨b, _ | ⟨c, _ | _⟩⟩⟩ <;> simp at h
    · obtain ⟨rfl, rfl, rfl⟩ := h
      simp only [startPat, CapsOK] at hok
      obtain ⟨x1, r1, he1, hd1, x2, r2, he2, hh2, hd3⟩ := hok
      obtain ⟨x3, r3, he3, hd3b, hnil⟩ := hd3
      cases he1
      cases he2
      cases he3
      exact ⟨hd1, hh2, hd3b⟩

lemma matchTiming_shape {s g1 g2 g3 g4 g5}
    (h : matchTiming s = some (g1, g2, g3, g4, g5)) :
    digitRun g1 ∧ digitRun g2 ∧ digitRun g3 ∧ digitRun g4 ∧ digitRun g5 := by
  unfold matchTiming at h
  rcases hr : reSearch timingPat s with _ | caps
  · rw [hr] at h; exact absurd h (by simp)
  · rw [hr] at h
    have hok := searchFrom_capsOK hr
    rcases caps with _ | ⟨a, _ | ⟨b, _ | ⟨c, _ | ⟨d, _ | ⟨e, _ | _⟩⟩⟩⟩⟩ <;> simp at h
    · obtain ⟨rfl, rfl, rfl, rfl, rfl⟩ := h
      simp only [timingPat, CapsOK] at hok
      obtain ⟨x1, r1, he1, hd1, x2, r2, he2, hd2, x3, r3, he3, hd3, x4, r4, he4, hd4,
        x5, r5, he5, hd5, hnil⟩ := hok
      cases he1; cases he2; cases he3; cases he4; cases he5
      exact ⟨hd1, hd2, hd3, hd4, hd5⟩

lemma matchProg_shape {s g1 g2} (h : matchProg s = some (g1, g2)) :
    digitRun g1 ∧ digitRun g2 := by
  unfold matchProg at h
  rcases hr : reSearch progPat s with _ | caps
  · rw [hr] at h; exact absurd h (by simp)
  · rw [hr] at h
    have hok := searchFrom_capsOK hr
    rcases caps with _ | ⟨a, _ | ⟨b, _ | _⟩⟩ <;> simp at h
    · obtain ⟨rfl, rfl⟩ := h
      simp only [progPat, CapsOK] at hok
      obtain ⟨x1, r1, he1, hd1, x2, r2, he2, hd2, hnil⟩ := hok
      cases he1; cases he2
      exact ⟨hd1, hd2⟩

lemma matchEnd_shape {s g1 g2} (h : matchEnd s = some (g1, g2)) :
    digitRun g1 ∧ digitRun g2 := by
  unfold matchEnd at h
  rcases hr : reSearch endPat s with _ | caps
  · rw [hr] at h; exact absurd h (by simp)
  · rw [hr] at h
    have hok := searchFrom_capsOK hr
    rcases caps with _ | ⟨a, _ | ⟨b, _ | _⟩⟩ <;> simp at h
    · obtain ⟨rfl, rfl⟩ := h
      simp only [endPat, CapsOK] at hok
      obtain ⟨x1, r1, he1, hd1, x2, r2, he2, hd2, hnil⟩ := hok
      cases he1; cases he2
      exact ⟨hd1, hd2⟩

lemma lineEventsR_ok {s : Str} : ∀ e ∈ lineEventsR s, EvROK e := by
  intro e he
  unfold lineEventsR at he
  simp only [List.mem_append] at he
  rcases he with ((he | he) | he) | he
  · rcases hms : matchStart s with _ | ⟨g1, g2, g3⟩
    · rw [hms] at he; simp at he
    · rw [hms] at he
      simp at he
      subst he
      exact (matchStart_shape hms).2.1
  · rcases hmt : matchTiming s with _ | ⟨g1, g2, g3, g4, g5⟩
    · rw [hmt] at he; simp at he
    · rw [hmt] at he
      simp at he
      subst he
      exact matchTiming_shape hmt
  · rcases hmp : matchProg s with _ | ⟨g1, g2⟩
    · rw [hmp] at he; simp at he
    · rw [hmp] at he
      simp at he
      subst he
      exact matchProg_shape hmp
  · rcases hme : matchEnd s with _ | ⟨g1, g2⟩
    · rw [hme] at he; simp at he
    · rw [hme] at he
      simp at he
      subst he
      exact (matchEnd_shape hme).1

lemma stepEvR_eq {lf : Str} {acc : Option Cycle × List Cycle} {e : EvR} (he : EvROK e)
    (hsm : EvRSmall e = true) :
    stepEvR lf acc e = some (stepEvent lf acc (convEv e)) := by
  cases e with
  | start r t => rfl
  | timing g1 g2 g3 g4 g5 =>
    obtain ⟨h1, h2, h3, h4, h5⟩ := he
    simp only [EvRSmall, decide_eq_true_eq] at hsm
    obtain ⟨l1, l2, l3, l4, l5⟩ := hsm
    rcases hcur : acc.1 with _ | c
    · simp [stepEvR, stepEvent, convEv, hcur]
    · simp [stepEvR, stepEvent, convEv, hcur, pyInt_digitRun h1 l1, pyInt_digitRun h2 l2,
        pyInt_digitRun h3 l3, pyInt_digitRun h4 l4, pyInt_digitRun h5 l5]
  | prog g1 g2 =>
    obtain ⟨h1, h2⟩ := he
    simp only [EvRSmall, decide_eq_true_eq] at hsm
    obtain ⟨l1, l2, lo⟩ := hsm
    rcases hcur : acc.1 with _ | c
    · simp [stepEvR, stepEvent, convEv, hcur]
    · simp [stepEvR, stepEvent, convEv, hcur, pyInt_digitRun h1 l1, pyInt_digitRun h2 l2,
        litreStrE_lt lo]
  | fin g1 g2 =>
    simp only [EvRSmall, decide_eq_true_eq] at hsm
    obtain ⟨l1, lo⟩ := hsm
    rcases hcur : acc.1 with _ | c
    · simp [stepEvR, stepEvent, convEv, hcur]
    · by_cases hal : c.Actual_Litre = []
      · simp [stepEvR, stepEvent, convEv, hcur, hal, pyInt_digitRun he l1,
          litreStrE_lt lo, finishCycle]
      · simp [stepEvR, stepEvent, convEv, hcur, hal, finishCycle]

lemma foldlM_stepEvR {lf : Str} :
    ∀ (l : List EvR) (acc : Option Cycle × List Cycle), (∀ e ∈ l, EvROK e) →
      (∀ e ∈ l, EvRSmall e = true) →
      l.foldlM (stepEvR lf) acc =
        some (l.foldl (fun a e => stepEvent lf a (convEv e)) acc) := by
  intro l
  induction l with
  | nil => intro acc _ _; rfl
  | cons e l ih =>
    intro acc hok hsm
    rw [List.foldlM_cons,
      stepEvR_eq (hok e (List.mem_cons_self _ _)) (hsm e (List.mem_cons_self _ _))]
    simp only [Option.bind_eq_bind, Option.some_bind, List.foldl_cons]
    exact ih _ (fun e2 he2 => hok e2 (List.mem_cons_of_mem _ he2))
      (fun e2 he2 => hsm e2 (List.mem_cons_of_mem _ he2))

lemma processLineE_eq (lf : Str) (acc : Option Cycle × List Cycle) (line : Str)
    (hsm : ∀ e ∈ lineEventsR (pystrip line), EvRSmall e = true) :
    processLineE lf acc line = some (processLine lf acc line) := by
  unfold processLineE processLine
  by_cases hs : pystrip line = []
  · simp [hs]
  · simp only [hs, if_false]
    rw [foldlM_stepEvR _ _ (fun e he => lineEventsR_ok e he) hsm]
    rw [lineEvents, List.foldl_map]

lemma parse_logE_eq (lf : Str) (lines : List Str) (hsm : linesSmall lines) :
    parse_logE lf lines = some (parse_log lf lines) := by
  unfold parse_logE parse_log
  have main : ∀ (ls : List Str), linesSmall ls → ∀ (acc : Option Cycle × List Cycle),
      ls.foldlM (processLineE lf) acc = some (ls.foldl (processLine lf) acc) := by
    intro ls
    induction ls with
    | nil => intro _ acc; rfl
    | cons l ls ih =>
      intro hls acc
      rw [List.foldlM_cons, processLineE_eq lf acc l (hls l (List.mem_cons_self _ _))]
      simp only [Option.bind_eq_bind, Option.some_bind, List.foldl_cons]
      exact ih (fun l2 hl2 => hls l2 (List.mem_cons_of_mem _ hl2)) _
  rw [main lines hsm]
  rfl

lemma foldl_processLine (lf : Str) :
    ∀ (lines : List Str) (acc : Option Cycle × List Cycle),
      lines.foldl (processLine lf) acc = (eventsOfFile lines).foldl (stepEvent lf) acc := by
  intro lines
  induction lines with
  | nil => intro acc; rfl
  | cons l lines ih =>
    intro acc
    rw [List.foldl_cons, eventsOfFile, List.foldr_cons, List.foldl_append, ih]
    congr 1
    unfold processLine
    by_cases hs : pystrip l = []
    · simp [hs]
    · simp [hs]

lemma parse_log_eq_assemble (lf : Str) (lines : List Str) :
    parse_log lf lines = (assemble lf (eventsOfFile lines)).2 := by
  unfold parse_log assemble
  rw [foldl_processLine]

lemma assemble_length (lf : Str) :
    ∀ (es : List Ev) (st : Option Cycle) (out : List Cycle),
      (es.foldl (stepEvent lf) (st, out)).2.length = out.length + countGoodEnds st.isSome es := by
  intro es
  induction es with
  | nil => intro st out; simp [countGoodEnds]
  | cons e es ih =>
    intro st out
    cases e with
    | start r t =>
      rw [List.foldl_cons]
      show (es.foldl (stepEvent lf) (some (initCycle lf t r), out)).2.length = _
      rw [ih, countGoodEnds]
      rfl
    | timing h a1 a2 a3 a4 =>
      rw [List.foldl_cons]
      rcases st with _ | c
      · show (es.foldl (stepEvent lf) ((none : Option Cycle), out)).2.length = _
        rw [ih, countGoodEnds]
      · show (es.foldl (stepEvent lf) (some _, out)).2.length = _
        rw [ih, countGoodEnds]
        rfl
    | prog d n =>
      rw [List.foldl_cons]
      rcases st with _ | c
      · show (es.foldl (stepEvent lf) ((none : Option Cycle), out)).2.length = _
        rw [ih, countGoodEnds]
      · show (es.foldl (stepEvent lf) (some _, out)).2.length = _
        rw [ih, countGoodEnds]
        rfl
    | fin d =>
      rw [List.foldl_cons]
      rcases st with _ | c
      · show (es.foldl (stepEvent lf) ((none : Option Cycle), out)).2.length = _
        rw [ih, countGoodEnds]
        simp
      · show (es.foldl (stepEvent lf) ((none : Option Cycle), out ++ [finishCycle c d])).2.length = _
        rw [ih, countGoodEnds]
        simp
        omega

lemma litreStr_ne_nil (d : Nat) : litreStr d ≠ [] := by
  unfold litreStr
  intro h
  rw [List.append_eq_nil] at h
  exact absurd h.2 (by decide)

lemma finishCycle_Additives (c : Cycle) (d : Nat) :
    (finishCycle c d).Additives = c.Additives := by
  unfold finishCycle
  split <;> rfl

lemma assembleI_erase (lf : Str) :
    ∀ (es : List Ev) (stI : Option (Cycle × Ghost)) (outI : List Emit),
      es.foldl (stepEvent lf) (stI.map Prod.fst, outI.map Emit.cyc) =
        (((es.foldl (stepEventI lf) (stI, outI)).1).map Prod.fst,
         ((es.foldl (stepEventI lf) (stI, outI)).2).map Emit.cyc) := by
  intro es
  induction es with
  | nil => intro stI outI; rfl
  | cons e es ih =>
    intro stI outI
    rw [List.foldl_cons, List.foldl_cons]
    cases e with
    | start r t =>
      exact ih (some (initCycle lf t r, { timings := [], progs := [] })) outI
    | timing h a1 a2 a3 a4 =>
      rcases stI with _ | ⟨c, g⟩
      · exact ih none outI
      · exact ih (some ({ c with Hydra_ms := h, Additives := additivesStr a1 a2 a3 a4 },
          { g with timings := g.timings ++ [(h, a1, a2, a3, a4)] })) outI
    | prog d n =>
      rcases stI with _ | ⟨c, g⟩
      · exact ih none outI
      · exact ih (some ({ c with Progress := progStr d n, Actual_Litre := litreStr d },
          { g with progs := g.progs ++ [(d, n)] })) outI
    | fin d =>
      rcases stI with _ | ⟨c, g⟩
      · exact ih none outI
      · have h2 := ih none (outI ++ [Emit.mk (finishCycle c d) g.timings g.progs d])
        simp only [List.map_append, List.map_cons, List.map_nil, Option.map_none] at h2
        exact h2

lemma parse_log_eq_assembleI (lf : Str) (lines : List Str) :
    parse_log lf lines = (assembleI lf (eventsOfFile lines)).2.map Emit.cyc := by
  rw [parse_log_eq_assemble]
  unfold assemble assembleI
  exact congrArg Prod.snd (assembleI_erase lf (eventsOfFile lines) none [])

lemma assembleI_inv (lf : Str) :
    ∀ (es : List Ev) (stI : Option (Cycle × Ghost)) (outI : List Emit),
      (∀ c g, stI = some (c, g) → InvCG c g) → (∀ e ∈ outI, EmitOK e) →
      (∀ c g, (es.foldl (stepEventI lf) (stI, outI)).1 = some (c, g) → InvCG c g) ∧
      (∀ e ∈ (es.foldl (stepEventI lf) (stI, outI)).2, EmitOK e) := by
  intro es
  induction es with
  | nil => intro stI outI hst hout; exact ⟨hst, hout⟩
  | cons e es ih =>
    intro stI outI hst hout
    rw [List.foldl_cons]
    cases e with
    | start r t =>
      refine ih (some (initCycle lf t r, { timings := [], progs := [] })) outI ?_ hout
      rintro c g hcg
      simp only [Option.some.injEq, Prod.mk.injEq] at hcg
      obtain ⟨h1, h2⟩ := hcg
      subst h1
      subst h2
      simp [InvCG, initCycle]
    | timing h a1 a2 a3 a4 =>
      rcases stI with _ | ⟨c, g⟩
      · exact ih none outI hst hout
      · have hin := hst c g rfl
        refine ih (some ({ c with Hydra_ms := h, Additives := additivesStr a1 a2 a3 a4 },
          { g with timings := g.timings ++ [(h, a1, a2, a3, a4)] })) outI ?_ hout
        rintro c2 g2 hcg
        simp only [Option.some.injEq, Prod.mk.injEq] at hcg
        obtain ⟨h1, h2⟩ := hcg
        subst h1
        subst h2
        constructor
        · simp only [List.getLast?_concat]
        · exact hin.2
    | prog d n =>
      rcases stI with _ | ⟨c, g⟩
      · exact ih none outI hst hout
      · have hin := hst c g rfl
        refine ih (some ({ c with Progress := progStr d n, Actual_Litre := litreStr d },
          { g with progs := g.progs ++ [(d, n)] })) outI ?_ hout
        rintro c2 g2 hcg
        simp only [Option.some.injEq, Prod.mk.injEq] at hcg
        obtain ⟨h1, h2⟩ := hcg
        subst h1
        subst h2
        constructor
        · exact hin.1
        · simp [List.getLast?_concat]
    | fin d =>
      rcases stI with _ | ⟨c, g⟩
      · exact ih none outI hst hout
      · have hin := hst c g rfl
        refine ih none (outI ++ [Emit.mk (finishCycle c d) g.timings g.progs d])
          (by rintro c2 g2 hcg; exact absurd hcg (by simp)) ?_
        intro e he
        rcases List.mem_append.1 he with he | he
        · exact hout e he
        · simp only [List.mem_singleton] at he
          subst he
          refine ⟨?_, ?_⟩
          · show (match g.timings.getLast? with
                | none => (finishCycle c d).Additives = []
                | some (_, a1, a2, a3, a4) =>
                  (finishCycle c d).Additives = additivesStr a1 a2 a3 a4)
            rcases hlast : g.timings.getLast? with _ | ⟨h5, a1, a2, a3, a4⟩
            · rw [finishCycle_Additives]
              have h3 := hin.1
              rw [hlast] at h3
              exact h3
            · rw [finishCycle_Additives]
              have h3 := hin.1
              rw [hlast] at h3
              exact h3
          · show (finishCycle c d).Actual_Litre =
                litreStr (match g.progs.getLast? with | none => d | some p => p.1)
            rcases hlast : g.progs.getLast? with _ | ⟨d2, n2⟩
            · have hal := hin.2
              rw [hlast] at hal
              unfold finishCycle
              rw [if_pos hal.1]
            · have hal := hin.2
              rw [hlast] at hal
              unfold finishCycle
              rw [if_neg (by rw [hal.1]; exact litreStr_ne_nil d2)]
              exact hal.1

lemma additivesUsed_eq_nil_iff (a1 a2 a3 a4 : Nat) :
    additivesUsed a1 a2 a3 a4 = [] ↔ a1 = 0 ∧ a2 = 0 ∧ a3 = 0 ∧ a4 = 0 := by
  unfold additivesUsed adPairs
  simp [List.filter_eq_nil_iff]

lemma ad_map_ne_nil (i : Nat) : ad_map i ≠ [] := by
  unfold ad_map
  split
  · simp [str]
  · split
    · simp [str]
    · split
      · simp [str]
      · split
        · simp [str]
        · simp [str]

lemma additivesUsed_mem_length {a1 a2 a3 a4 : Nat} :
    ∀ x ∈ additivesUsed a1 a2 a3 a4, 6 ≤ x.length := by
  intro x hx
  unfold additivesUsed at hx
  simp only [List.mem_map] at hx
  obtain ⟨p, _, rfl⟩ := hx
  have h1 : 1 ≤ (ad_map p.1).length := by
    have h5 := ad_map_ne_nil p.1
    cases hl : ad_map p.1 with
    | nil => exact absurd hl h5
    | cons a l => simp
  have h2 : 1 ≤ (natRepr p.2).length := by
    have h5 := natRepr_ne_nil p.2
    cases hl : natRepr p.2 with
    | nil => exact absurd hl h5
    | cons a l => simp
  have h3 : (str ": ").length = 2 := by decide
  have h4 : (str "ms").length = 2 := by decide
  simp only [List.length_append]
  omega

lemma joinSep_length_head (sep x : Str) (xs : List Str) :
    x.length ≤ (joinSep sep (x :: xs)).length := by
  cases xs with
  | nil => simp [joinSep]
  | cons y t => simp [joinSep]

lemma additivesStr_ne_nil (a1 a2 a3 a4 : Nat) : additivesStr a1 a2 a3 a4 ≠ [] := by
  unfold additivesStr
  rcases hu : additivesUsed a1 a2 a3 a4 with _ | ⟨x, xs⟩
  · simp [str]
  · rw [if_neg (show ¬((x :: xs : List Str) = []) by simp)]
    have h6 : 6 ≤ x.length := additivesUsed_mem_length x (by rw [hu]; exact List.mem_cons_self _ _)
    have hlen := joinSep_length_head (str ", ") x xs
    intro hcon
    rw [hcon] at hlen
    simp only [List.length_nil] at hlen
    omega

lemma additivesStr_eq_none_iff (a1 a2 a3 a4 : Nat) :
    additivesStr a1 a2 a3 a4 = str "None" ↔ a1 = 0 ∧ a2 = 0 ∧ a3 = 0 ∧ a4 = 0 := by
  constructor
  · intro h
    rcases hu : additivesUsed a1 a2 a3 a4 with _ | ⟨x, xs⟩
    · exact (additivesUsed_eq_nil_iff a1 a2 a3 a4).1 hu
    · exfalso
      unfold additivesStr at h
      rw [hu, if_neg (show ¬((x :: xs : List Str) = []) by simp)] at h
      have h6 : 6 ≤ x.length :=
        additivesUsed_mem_length x (by rw [hu]; exact List.mem_cons_self _ _)
      have hlen := joinSep_length_head (str ", ") x xs
      rw [h] at hlen
      have h4 : (str "None").length = 4 := by decide
      omega
  · intro h
    unfold additivesStr
    rw [if_pos ((additivesUsed_eq_nil_iff a1 a2 a3 a4).2 h)]

lemma additivesStr_eq_join {a1 a2 a3 a4 : Nat} (h : ¬(a1 = 0 ∧ a2 = 0 ∧ a3 = 0 ∧ a4 = 0)) :
    additivesStr a1 a2 a3 a4 = joinSep (str ", ") (additivesUsed a1 a2 a3 a4) := by
  unfold additivesStr
  rw [if_neg (fun hcon => h ((additivesUsed_eq_nil_iff a1 a2 a3 a4).1 hcon))]

lemma hRun_matchesHCi {r : Str} (h : hRun r) : matchesHCi r = true := by
  obtain ⟨c, g2, rfl, hc, hne, hall⟩ := h
  unfold matchesHCi
  rcases hc with rfl | rfl
  · simp [hne, hall]
  · simp [hne, hall]

lemma finishCycle_RecipeIndex (c : Cycle) (d : Nat) :
    (finishCycle c d).RecipeIndex = c.RecipeIndex := by
  unfold finishCycle
  split <;> rfl

lemma convEv_eq_start {eR : EvR} {r t : Str} (h : convEv eR = Ev.start r t) :
    eR = EvR.start r t := by
  cases eR <;> simp [convEv] at h
  obtain ⟨rfl, rfl⟩ := h
  rfl

lemma eventsOfFile_start_hRun {lines : List Str} :
    ∀ {r t}, Ev.start r t ∈ eventsOfFile lines → hRun r := by
  induction lines with
  | nil => intro r t h; simp [eventsOfFile] at h
  | cons l lines ih =>
    intro r t h
    rw [eventsOfFile, List.foldr_cons] at h
    rcases List.mem_append.1 h with h | h
    · by_cases hs : pystrip l = []
      · simp [hs] at h
      · simp only [hs, if_neg, if_false] at h
        rw [lineEvents] at h
        obtain ⟨eR, heR, hconv⟩ := List.mem_map.1 h
        have := convEv_eq_start hconv
        subst this
        exact lineEventsR_ok _ heR
    · exact ih h

lemma assemble_recipe (lf : Str) :
    ∀ (es : List Ev) (st : Option Cycle) (out : List Cycle),
      (∀ r t, Ev.start r t ∈ es → hRun r) →
      (∀ c, st = some c → matchesHCi c.RecipeIndex = true) →
      (∀ c ∈ out, matchesHCi c.RecipeIndex = true) →
      ∀ c ∈ (es.foldl (stepEvent lf) (st, out)).2, matchesHCi c.RecipeIndex = true := by
  intro es
  induction es with
  | nil => intro st out _ _ hout; exact hout
  | cons e es ih =>
    intro st out hes hst hout
    rw [List.foldl_cons]
    have hes2 : ∀ r t, Ev.start r t ∈ es → hRun r :=
      fun r t h => hes r t (List.mem_cons_of_mem _ h)
    cases e with
    | start r t =>
      refine ih (some (initCycle lf t r)) out hes2 ?_ hout
      rintro c hc
      simp only [Option.some.injEq] at hc
      subst hc
      exact hRun_matchesHCi (hes r t (List.mem_cons_self _ _))
    | timing h a1 a2 a3 a4 =>
      rcases st with _ | c
      · exact ih none out hes2 (by rintro c hc; exact absurd hc (by simp)) hout
      · refine ih (some _) out hes2 ?_ hout
        rintro c2 hc2
        simp only [Option.some.injEq] at hc2
        subst hc2
        exact hst c rfl
    | prog d n =>
      rcases st with _ | c
      · exact ih none out hes2 (by rintro c hc; exact absurd hc (by simp)) hout
      · refine ih (some _) out hes2 ?_ hout
        rintro c2 hc2
        simp only [Option.some.injEq] at hc2
        subst hc2
        exact hst c rfl
    | fin d =>
      rcases st with _ | c
      · exact ih none out hes2 (by rintro c hc; exact absurd hc (by simp)) hout
      · refine ih none (out ++ [finishCycle c d])
          (fun r t h => hes2 r t h) (by rintro c2 hc2; exact absurd hc2 (by simp)) ?_
        intro c2 hc2
        rcases List.mem_append.1 hc2 with hc2 | hc2
        · exact hout c2 hc2
        · simp only [List.mem_singleton] at hc2
          subst hc2
          rw [finishCycle_RecipeIndex]
          exact hst c rfl

lemma foldl_addTable :
    ∀ (ts : List (Str × List Cycle)) (f : Str → Nat) (r : Str),
      ts.foldl (fun acc p r2 => acc r2 + value_counts p.2 r2) f r =
        f r + (ts.map (fun p => value_counts p.2 r)).sum := by
  intro ts
  induction ts with
  | nil => intro f r; simp
  | cons p ts ih =>
    intro f r
    rw [List.foldl_cons, ih]
    simp [Nat.add_assoc]

lemma value_counts_nil (r : Str) : value_counts [] r = 0 := rfl

lemma filter_counts_sum :
    ∀ (ps : List (Str × List Cycle)) (r : Str),
      ((ps.filter (fun p => !p.2.isEmpty)).map (fun p => value_counts p.2 r)).sum =
        (ps.map (fun p => value_counts p.2 r)).sum := by
  intro ps
  induction ps with
  | nil => intro r; rfl
  | cons p ps ih =>
    intro r
    rw [List.filter_cons]
    by_cases hp : p.2.isEmpty
    · have hnil : p.2 = [] := List.isEmpty_iff.1 hp
      rw [if_neg (by simp [hp]), ih, List.map_cons, List.sum_cons, hnil, value_counts_nil,
        Nat.zero_add]
    · rw [if_pos (by simp [hp]), List.map_cons, List.sum_cons, List.map_cons, List.sum_cons, ih]

lemma takeWhile_append_all {p : Char → Bool} :
    ∀ (a b : Str), a.all p = true → b.takeWhile p = [] → (a ++ b).takeWhile p = a := by
  intro a
  induction a with
  | nil => intro b _ hb; simpa using hb
  | cons c a ih =>
    intro b hall hb
    simp only [List.all_cons, Bool.and_eq_true] at hall
    rw [List.cons_append, List.takeWhile_cons, if_pos hall.1, ih b hall.2 hb]

lemma cand_inj (base : Str) : Function.Injective (cand base) := by
  have hx : (str ".xlsx").takeWhile Char.isDigit = [] := by decide
  intro j k h
  cases j with
  | zero =>
    cases k with
    | zero => rfl
    | succ k =>
      exfalso
      simp only [cand] at h
      have h1 : base ++ str ".xlsx" = base ++ (str "_" ++ (natRepr (k + 1) ++ str ".xlsx")) := by
        simpa [List.append_assoc] using h
      have h2 := List.append_cancel_left h1
      simp [str] at h2
  | succ j =>
    cases k with
    | zero =>
      exfalso
      simp only [cand] at h
      have h1 : base ++ (str "_" ++ (natRepr (j + 1) ++ str ".xlsx")) = base ++ str ".xlsx" := by
        simpa [List.append_assoc] using h
      have h2 := List.append_cancel_left h1
      simp [str] at h2
    | succ k =>
      simp only [cand] at h
      have h1 : base ++ (str "_" ++ (natRepr (j + 1) ++ str ".xlsx")) =
          base ++ (str "_" ++ (natRepr (k + 1) ++ str ".xlsx")) := by
        simpa [List.append_assoc] using h
      have h2 := List.append_cancel_left h1
      have h3 := List.append_cancel_left h2
      have h4 := congrArg (List.takeWhile Char.isDigit) h3
      rw [takeWhile_append_all _ _ (natRepr_all_digit _) hx,
        takeWhile_append_all _ _ (natRepr_all_digit _) hx] at h4
      have h5 := natRepr_inj h4
      omega

lemma exists_free_cand (base : Str) (existing : List Str) :
    ∃ j, j ≤ existing.length ∧ cand base j ∉ existing := by
  by_contra hcon
  push_neg at hcon
  have hsub : ((List.range (existing.length + 1)).map (cand base)).toFinset ⊆
      existing.toFinset := by
    intro x hxmem
    rw [List.mem_toFinset] at hxmem ⊢
    obtain ⟨j, hj, rfl⟩ := List.mem_map.1 hxmem
    exact hcon j (by simpa using Nat.lt_succ_iff.1 (List.mem_range.1 hj))
  have hnodup : ((List.range (existing.length + 1)).map (cand base)).Nodup :=
    (List.nodup_range _).map (cand_inj base)
  have hcard1 : ((List.range (existing.length + 1)).map (cand base)).toFinset.card =
      existing.length + 1 := by
    rw [List.toFinset_card_of_nodup hnodup]
    simp
  have hcard2 : existing.toFinset.card ≤ existing.length := List.toFinset_card_le existing
  have := Finset.card_le_card hsub
  omega

lemma chooseAux_spec (base : Str) (existing : List Str) :
    ∀ (fuel k : Nat), (∃ j, j < fuel ∧ cand base (k + j) ∉ existing) →
      ∃ j, chooseAux base existing fuel k = cand base (k + j) ∧
        cand base (k + j) ∉ existing ∧ ∀ i < j, cand base (k + i) ∈ existing := by
  intro fuel
  induction fuel with
  | zero =>
    intro k h
    obtain ⟨j, hj, _⟩ := h
    omega
  | succ fuel ih =>
    intro k h
    rw [chooseAux]
    by_cases hk : cand base k ∈ existing
    · rw [if_pos hk]
      obtain ⟨j, hjlt, hjfree⟩ := h
      have hj0 : j ≠ 0 := by
        rintro rfl
        simp at hjfree
        exact hjfree hk
      obtain ⟨j2, hj2, hj2free⟩ := ih (k + 1)
        ⟨j - 1, by omega, by
          have : k + 1 + (j - 1) = k + j := by omega
          rw [this]
          exact hjfree⟩
      refine ⟨j2 + 1, ?_, ?_, ?_⟩
      · rw [hj2]
        congr 1
        omega
      · have : k + (j2 + 1) = k + 1 + j2 := by omega
        rw [this]
        exact hj2free.1
      · intro i hi
        cases i with
        | zero => simpa using hk
        | succ i =>
          have : k + (i + 1) = k + 1 + i := by omega
          rw [this]
          exact hj2free.2 i (by omega)
    · rw [if_neg hk]
      exact ⟨0, by simp, by simpa using hk, by omega⟩

lemma chooseOutput_spec (base : Str) (existing : List Str) :
    ∃ j, chooseOutput base existing = cand base j ∧ cand base j ∉ existing ∧
      ∀ i < j, cand base i ∈ existing := by
  obtain ⟨j, hjle, hjfree⟩ := exists_free_cand base existing
  obtain ⟨j2, hj2, hfree, hmin⟩ := chooseAux_spec base existing (existing.length + 1) 0
    ⟨j, by omega, by simpa using hjfree⟩
  exact ⟨j2, by simpa using hj2, by simpa using hfree, by simpa using hmin⟩

/-- C1: for every input file, the number of DispenseCycle records emitted
equals the number of End events that were preceded (since the last End or
the start of the file) by at least one Start event; an End event arriving
while no cycle is in progress changes neither the state nor the output. -/
theorem claim_C1 : ∀ (lf : Str) (lines : List Str),
    (parse_log lf lines).length = countGoodEnds false (eventsOfFile lines) ∧
    ∀ (out : List Cycle) (d : Nat), stepEvent lf (none, out) (Ev.fin d) = (none, out) := by
  intro lf lines
  constructor
  · rw [parse_log_eq_assemble]
    unfold assemble
    have h := assemble_length lf (eventsOfFile lines) none []
    simpa using h
  · intro out d
    rfl

/-- C10 counterexample: parse_log is not total over its input text: a
progress line whose Done capture is a 310-digit number past ovfBound makes
the f-string division done/10 raise OverflowError, so the exception-aware
parse fails on linesOvf. -/
theorem claim_C10_cex : parse_logE fileA linesOvf = none := by decide

/-- C10 amended: parse_log raises no exception and returns its record list
on every input whose captured digit groups stay within CPython's limits: at
most maxIntDigits digits per converted capture (past which int() raises
ValueError on CPython 3.11+), and every done value that reaches the
f-string division below ovfBound (past which done/10 raises OverflowError).
On such inputs every converted capture is a nonempty digit string, the
values are non-negative, and the only division is by the constant 10. -/
theorem claim_C10_amended : ∀ (lf : Str) (lines : List Str), linesSmall lines →
    parse_logE lf lines = some (parse_log lf lines) :=
  fun lf lines hsm => parse_logE_eq lf lines hsm

/-- C10 witness: the bounded input linesW1 parses without an exception. -/
theorem claim_C10_witness : parse_logE fileA linesW1 = some (parse_log fileA linesW1) :=
  claim_C10_amended fileA linesW1 (by unfold linesSmall; decide)

/-- C7: a Start event while a cycle is in progress contributes no record and
resets the state to a fresh record with default fields (Hydra_ms 0, empty
Additives, Progress and Actual_Litre); a file that ends with an in-progress
cycle contributes only the already-completed records. -/
theorem claim_C7 : ∀ (lf : Str) (es : List Ev) (r t : Str),
    (assemble lf (es ++ [Ev.start r t])).2 = (assemble lf es).2 ∧
    (assemble lf (es ++ [Ev.start r t])).1 =
      some { LogFile := lf, StartTime := t, RecipeIndex := r, Hydra_ms := 0,
             Additives := [], Progress := [], Actual_Litre := [] } ∧
    ∀ lines, parse_log lf lines = (assemble lf (eventsOfFile lines)).2 := by
  intro lf es r t
  refine ⟨?_, ?_, fun lines => parse_log_eq_assemble lf lines⟩
  · unfold assemble
    rw [List.foldl_append]
    rfl
  · unfold assemble
    rw [List.foldl_append]
    rfl

/-- C2: parse_log agrees with the ghost-instrumented assembler, and for
every emitted record: Additives is empty iff no timing line was observed for
the cycle; it is the literal None iff a timing line was observed and the
last one had all four Ad values zero; otherwise it is the comma-space-joined
list, in index order 1..4, of exactly the entries with positive ms, rendered
name: msms through the fixed additive map. -/
theorem claim_C2 :
    (∀ (lf : Str) (lines : List Str),
      parse_log lf lines = (assembleI lf (eventsOfFile lines)).2.map Emit.cyc) ∧
    (∀ (lf : Str) (es : List Ev), ∀ e ∈ (assembleI lf es).2,
      (e.cyc.Additives = [] ↔ e.timings = []) ∧
      (e.cyc.Additives = str "None" ↔
        (∃ h5 a1 a2 a3 a4, e.timings.getLast? = some (h5, a1, a2, a3, a4) ∧
          a1 = 0 ∧ a2 = 0 ∧ a3 = 0 ∧ a4 = 0)) ∧
      (∀ h5 a1 a2 a3 a4, e.timings.getLast? = some (h5, a1, a2, a3, a4) →
        ¬(a1 = 0 ∧ a2 = 0 ∧ a3 = 0 ∧ a4 = 0) →
        e.cyc.Additives = joinSep (str ", ") (additivesUsed a1 a2 a3 a4))) := by
  refine ⟨fun lf lines => parse_log_eq_assembleI lf lines, ?_⟩
  intro lf es e he
  have hEmit := (assembleI_inv lf es none []
    (by rintro c g hcg; exact absurd hcg (by simp))
    (by intro e2 he2; exact absurd he2 (by simp))).2 e he
  have hT := hEmit.1
  rcases List.eq_nil_or_concat e.timings with hnil | ⟨ts, x, hconc⟩
  · rw [hnil] at hT
    simp only [List.getLast?_nil] at hT
    refine ⟨⟨fun _ => hnil, fun _ => hT⟩, ⟨?_, ?_⟩, ?_⟩
    · intro hN
      rw [hT] at hN
      exact absurd hN.symm (by decide)
    · rintro ⟨h5, a1, a2, a3, a4, hsome, _⟩
      rw [hnil] at hsome
      exact absurd hsome (by simp)
    · intro h5 a1 a2 a3 a4 hsome _
      rw [hnil] at hsome
      exact absurd hsome (by simp)
  · rw [List.concat_eq_append] at hconc
    rcases x with ⟨h5, a1, a2, a3, a4⟩
    rw [hconc] at hT
    simp only [List.getLast?_concat] at hT
    refine ⟨⟨?_, ?_⟩, ⟨?_, ?_⟩, ?_⟩
    · intro h
      rw [hT] at h
      exact absurd h (additivesStr_ne_nil a1 a2 a3 a4)
    · intro h
      rw [hconc] at h
      exact absurd h (by simp)
    · intro hN
      rw [hT] at hN
      have hz := (additivesStr_eq_none_iff a1 a2 a3 a4).1 hN
      exact ⟨h5, a1, a2, a3, a4, by rw [hconc, List.getLast?_concat],
        hz.1, hz.2.1, hz.2.2.1, hz.2.2.2⟩
    · rintro ⟨h6, b1, b2, b3, b4, hsome, hz1, hz2, hz3, hz4⟩
      rw [hconc, List.getLast?_concat] at hsome
      simp only [Option.some.injEq, Prod.mk.injEq] at hsome
      obtain ⟨-, h1, h2, h3, h4⟩ := hsome
      subst h1
      subst h2
      subst h3
      subst h4
      rw [hT]
      exact (additivesStr_eq_none_iff a1 a2 a3 a4).2 ⟨hz1, hz2, hz3, hz4⟩
    · intro h6 b1 b2 b3 b4 hsome hnz
      rw [hconc, List.getLast?_concat] at hsome
      simp only [Option.some.injEq, Prod.mk.injEq] at hsome
      obtain ⟨-, h1, h2, h3, h4⟩ := hsome
      subst h1
      subst h2
      subst h3
      subst h4
      rw [hT]
      exact additivesStr_eq_join hnz

/-- C2 witness: the complete cycle of linesW1 carries one timing event with
values 9, 2, 0, 5, 0, and its Additives field is the joined list of the two
positive entries. -/
theorem claim_C2_witness :
    (emitW1.cyc.Additives = [] ↔ emitW1.timings = []) ∧
    (emitW1.cyc.Additives = str "None" ↔
      (∃ h5 a1 a2 a3 a4, emitW1.timings.getLast? = some (h5, a1, a2, a3, a4) ∧
        a1 = 0 ∧ a2 = 0 ∧ a3 = 0 ∧ a4 = 0)) ∧
    (∀ h5 a1 a2 a3 a4, emitW1.timings.getLast? = some (h5, a1, a2, a3, a4) →
      ¬(a1 = 0 ∧ a2 = 0 ∧ a3 = 0 ∧ a4 = 0) →
      emitW1.cyc.Additives = joinSep (str ", ") (additivesUsed a1 a2 a3 a4)) :=
  claim_C2.2 fileA (eventsOfFile linesW1) emitW1 (by decide)

/-- C6 counterexample: the emitted Actual_Litre renders the binary64 double
nearest done/10, not the exact quotient: at done = 5629499534213123 the
program prints 562949953421312.2L (the nearest double ends in .25 and
formats, ties to even, down to .2) while done/10 with exactly one decimal
place is 562949953421312.3L. -/
theorem claim_C6_cex :
    ¬ (∀ c ∈ parse_log fileA linesTie, c.Actual_Litre = exactOneDec 5629499534213123) ∧
    (parse_log fileA linesTie).map (fun c => c.Actual_Litre) = [str "562949953421312.2L"] ∧
    exactOneDec 5629499534213123 = str "562949953421312.3L" := by
  refine ⟨?_, ?_, ?_⟩
  · decide
  · decide
  · decide

/-- C6 amended: parse_log agrees with the ghost-instrumented assembler, and
for every emitted record Actual_Litre is the one-decimal, ties-to-even
rendering of the binary64 double nearest done/10, followed by L, where done
is the last progress event's done value when one was observed for the cycle
and the End event's done value otherwise; in particular Actual_Litre is
never empty on an emitted record. -/
theorem claim_C6_amended :
    (∀ (lf : Str) (lines : List Str),
      parse_log lf lines = (assembleI lf (eventsOfFile lines)).2.map Emit.cyc) ∧
    (∀ d : Nat, litreStr d = fmt1f (double10 d) ++ str "L") ∧
    (∀ (lf : Str) (es : List Ev), ∀ e ∈ (assembleI lf es).2,
      e.cyc.Actual_Litre =
        litreStr (match e.progs.getLast? with | none => e.endDone | some p => p.1) ∧
      e.cyc.Actual_Litre ≠ []) := by
  refine ⟨fun lf lines => parse_log_eq_assembleI lf lines, fun d => rfl, ?_⟩
  intro lf es e he
  have hEmit := (assembleI_inv lf es none []
    (by rintro c g hcg; exact absurd hcg (by simp))
    (by intro e2 he2; exact absurd he2 (by simp))).2 e he
  refine ⟨hEmit.2, ?_⟩
  rw [hEmit.2]
  exact litreStr_ne_nil _

/-- C6 witness: the cycle of linesW2 has no progress event, and its
Actual_Litre is computed from the End event's done value 5 as 0.5L. -/
theorem claim_C6_witness :
    emitW2.cyc.Actual_Litre =
      litreStr (match emitW2.progs.getLast? with | none => emitW2.endDone | some p => p.1) ∧
    emitW2.cyc.Actual_Litre ≠ [] :=
  claim_C6_amended.2.2 fileA (eventsOfFile linesW2) emitW2 (by decide)

/-- C4 counterexample: the Start regex is case-insensitive and the captured
recipe token keeps the source case, so a lower-case start line yields an
emitted record whose RecipeIndex is h7, which does not match the claimed
upper-case pattern H followed by digits. -/
theorem claim_C4_cex :
    ¬ (∀ c ∈ parse_log fileA linesLower, matchesHUpper c.RecipeIndex = true) ∧
    (parse_log fileA linesLower).map (fun c => c.RecipeIndex) = [str "h7"] := by
  constructor
  · decide
  · decide

/-- C4 amended: for every emitted cycle, RecipeIndex consists of an upper-
or lower-case H followed by one or more digits (the Start regex matches
case-insensitively and the capture keeps the source case). -/
theorem claim_C4_amended :
    ∀ (lf : Str) (lines : List Str), ∀ c ∈ parse_log lf lines,
      matchesHCi c.RecipeIndex = true := by
  intro lf lines c hc
  rw [parse_log_eq_assemble] at hc
  exact assemble_recipe lf (eventsOfFile lines) none []
    (fun r t h => eventsOfFile_start_hRun h)
    (by rintro c2 h2; exact absurd h2 (by simp))
    (by intro c2 h2; exact absurd h2 (by simp)) c hc

/-- C4 witness: the record emitted by linesW3 has RecipeIndex H2, which the
amended invariant accepts. -/
theorem claim_C4_witness : matchesHCi cycW3.RecipeIndex = true :=
  claim_C4_amended fileA linesW3 cycW3 (by decide)

/-- C5 counterexample: a single line that matches both the Start and the End
pattern produces two tagged events, so processing it performs the
state-machine actions of two distinct event kinds. -/
theorem claim_C5_cex :
    ¬ ((lineEvents (pystrip lineDouble)).length ≤ 1) ∧
    (parse_log fileA [lineDouble]).length = 1 := by
  constructor
  · decide
  · decide

/-- C5 amended: one line produces at most one tagged event of each of the
four kinds, at most four in total, emitted in the fixed block order Start,
Timing, Progress, End; a line that matches several patterns performs the
actions of each matched kind, not of at most one. -/
theorem claim_C5_amended : ∀ s : Str,
    (lineEvents s).length ≤ 4 ∧
    List.Pairwise (fun a b => evRank a < evRank b) (lineEvents s) := by
  intro s
  unfold lineEvents lineEventsR
  rcases h1 : matchStart s with _ | ⟨g1, g2, g3⟩ <;>
    rcases h2 : matchTiming s with _ | ⟨t1, t2, t3, t4, t5⟩ <;>
      rcases h3 : matchProg s with _ | ⟨p1, p2⟩ <;>
        rcases h4 : matchEnd s with _ | ⟨e1, e2⟩ <;>
          simp [convEv, evRank]

/-- C3 counterexample: with no input files the driver produces no records,
and the claim's nonzero-exit-code part fails because the early exit uses
Python exit() with no argument, which terminates with status 0. -/
theorem claim_C3_cex : ¬ ((runTool []).records = [] → (runTool []).exitCode ≠ 0) := by
  decide

/-- C3 amended: when no cycles are produced across all input files, the tool
prints a warning and terminates early without writing a workbook, but exits
with status 0 (exit() with no argument); when cycles are produced it writes
the workbook and also exits with status 0. -/
theorem claim_C3_amended : ∀ inputs : List (Str × List Str),
    ((runTool inputs).records = [] →
      (runTool inputs).warned = true ∧ (runTool inputs).workbookWritten = false ∧
        (runTool inputs).exitCode = 0) ∧
    ((runTool inputs).records ≠ [] →
      (runTool inputs).exitCode = 0 ∧ (runTool inputs).workbookWritten = true ∧
        (runTool inputs).warned = false) := by
  intro inputs
  by_cases h : ((inputs.map (fun p => parse_log p.1 p.2)).foldr (fun l acc => l ++ acc) []) = []
  · simp [runTool, h]
  · simp [runTool, h]

/-- C3 witness: on the empty input list the driver warns, writes no
workbook, and exits with status 0. -/
theorem claim_C3_witness :
    (runTool []).warned = true ∧ (runTool []).workbookWritten = false ∧
      (runTool []).exitCode = 0 :=
  (claim_C3_amended []).1 (by decide)

/-- C8: for every recipe key, the combined frequency table holds the sum
over all input files of that recipe's per-file count, files whose parse
produced no records contributing zero. -/
theorem claim_C8 : ∀ (inputs : List (Str × List Str)) (r : Str),
    combined_recipe_counts inputs r =
      (inputs.map (fun p => value_counts (parse_log p.1 p.2) r)).sum := by
  intro inputs r
  unfold combined_recipe_counts individualData
  rw [foldl_addTable, filter_counts_sum]
  simp only [List.map_map, Nat.zero_add]
  rfl

/-- C9: the chosen output name is the first candidate, in the order base
then base_1, base_2, and so on, that does not exist, so an existing file is
never chosen, and a second back-to-back run (seeing the first run's file)
chooses a different name that differs only in the numeric suffix. -/
theorem claim_C9 : ∀ (base : Str) (existing : List Str),
    chooseOutput base existing ∉ existing ∧
    (∃ k, chooseOutput base existing = cand base k ∧ ∀ i < k, cand base i ∈ existing) ∧
    chooseOutput base (chooseOutput base existing :: existing) ≠ chooseOutput base existing ∧
    (∃ k1 k2, k1 ≠ k2 ∧ chooseOutput base existing = cand base k1 ∧
      chooseOutput base (chooseOutput base existing :: existing) = cand base k2) := by
  intro base existing
  obtain ⟨k1, h1eq, h1free, h1min⟩ := chooseOutput_spec base existing
  obtain ⟨k2, h2eq, h2free, h2min⟩ :=
    chooseOutput_spec base (chooseOutput base existing :: existing)
  have hne : chooseOutput base (chooseOutput base existing :: existing) ≠
      chooseOutput base existing := by
    intro hcon
    apply h2free
    rw [← h2eq, hcon]
    exact List.mem_cons_self _ _
  refine ⟨by rw [h1eq]; exact h1free, ⟨k1, h1eq, h1min⟩, hne, ⟨k1, k2, ?_, h1eq, h2eq⟩⟩
  rintro rfl
  exact hne (h2eq.trans h1eq.symm)
